import Mathlib

/-!
Shallow embedding of the `xbar` crate (`src/lib.rs`): a one-sided binary-tree
crossbar switch wiring enumerator.  The Rust code works on `usize`; all index
arithmetic stays far below 2^64 and every subtraction in the source is guarded
by the surrounding branch conditions, so `Nat` with truncated subtraction is a
faithful model (each subtraction site is annotated below).

Source structures `Position`, `Connection`, `Crossbar` and the functions
`Position::new`, `Crossbar::{new, blocks, rows, columns, b2i,
full_block_reverse, full_block_forward, full_block, half_block, step}` and the
`Iterator::next` implementation are translated one-to-one.  The iterator is
modelled as `Crossbar.next : Crossbar → Option Connection × Crossbar`
(Rust's `&mut self` receiver made explicit); the produced sequence is the list
obtained by calling `next` until it yields `none`, realised by the fuel-based
`Crossbar.take` with a proven-sufficient fuel bound.
-/

namespace Xbar

/-- Struct `Position` (src/lib.rs:74-84): location of a row. -/
structure Position where
  block_idx : Nat
  row_idx : Nat
  abs_idx : Nat
  deriving Repr, DecidableEq

/-- Struct `Connection` (src/lib.rs:89-96): a vertical link between two rows. -/
structure Connection where
  start : Position
  «end» : Position
  col_idx : Nat
  deriving Repr, DecidableEq

/-- Struct `Crossbar` (src/lib.rs:100-105): the iterator state. -/
structure Crossbar where
  count : Nat
  inner_idx : Nat
  outer_idx : Nat
  deriving Repr, DecidableEq

/-- Function `Position::new` (src/lib.rs:108-114). -/
def Position.new (block_idx row_idx count : Nat) : Position :=
  { block_idx := block_idx
    row_idx := row_idx
    abs_idx := row_idx + block_idx * count }

/-- Function `Crossbar::new` (src/lib.rs:132-138). -/
def Crossbar.new (count : Nat) : Crossbar :=
  { count := count, inner_idx := 0, outer_idx := 1 }

/-- Function `Crossbar::blocks` (src/lib.rs:161-163).  `count - 1` on `usize`;
for `count = 0` the Rust subtraction underflows (panic in debug builds),
`Nat` truncates to `0` — all theorems below use it only for `count ≥ 1`,
where the two agree. -/
def Crossbar.blocks (count : Nat) : Nat :=
  count - 1

/-- Function `Crossbar::rows` (src/lib.rs:184-186), same `count = 0` caveat. -/
def Crossbar.rows (count : Nat) : Nat :=
  count * (count - 1)

/-- Function `Crossbar::columns` (src/lib.rs:206-208). -/
def Crossbar.columns (count : Nat) : Nat :=
  count / 2

/-- Function `Crossbar::b2i` (src/lib.rs:211-217). -/
def Crossbar.b2i (b : Bool) : Nat :=
  if b then 1 else 0

/-- Function `Crossbar::full_block_reverse` (src/lib.rs:220-232).  Called (via
`full_block`) only with `i + j ≥ n`, `1 ≤ i`, so `2*i - 1`, `i + j - n`
and `j + i - n` match the `usize` subtractions. -/
def Crossbar.full_block_reverse (n i j : Nat) : Connection :=
  let block := 2 * i - 1
  let col := if j < 3 * i then j % i else i + min (j % i) (j + i - n)
  { start := Position.new block (i + j - n) n
    «end» := Position.new block j n
    col_idx := col }

/-- Function `Crossbar::full_block_forward` (src/lib.rs:235-242).  Called only with
`1 ≤ i`, so `2*i - 2` matches the `usize` subtraction. -/
def Crossbar.full_block_forward (n i j : Nat) (is_odd is_wrap : Bool) : Connection :=
  let block := 2 * i - 2
  { start := Position.new (block + Crossbar.b2i is_odd) j n
    «end» := Position.new (block + Crossbar.b2i (is_odd || is_wrap)) ((i + j) % n) n
    col_idx := j % i }

/-- Function `Crossbar::full_block` (src/lib.rs:245-253). -/
def Crossbar.full_block (n i j : Nat) : Connection :=
  let is_odd := ((j / i) &&& 1) == 1
  let is_wrap := decide (i + j ≥ n)
  if is_odd && is_wrap then Crossbar.full_block_reverse n i j
  else Crossbar.full_block_forward n i j is_odd is_wrap

/-- Function `Crossbar::half_block` (src/lib.rs:256-263). -/
def Crossbar.half_block (n i j : Nat) : Connection :=
  let block := 2 * i - 2
  { start := Position.new block j n
    «end» := Position.new block (i + j) n
    col_idx := j }

/-- Function `Crossbar::step` (src/lib.rs:266-272). -/
def Crossbar.step (cb : Crossbar) (inner_lim : Nat) : Crossbar :=
  let inner := cb.inner_idx + 1
  if inner ≥ inner_lim then
    { cb with inner_idx := 0, outer_idx := cb.outer_idx + 1 }
  else
    { cb with inner_idx := inner }

/-- Method `<Crossbar as Iterator>::next` (src/lib.rs:277-292), with the `&mut self`
receiver made explicit: returns the produced item (if any) and the updated
state.  In the exhausted branch Rust leaves `self` untouched, modelled by
returning `cb` unchanged. -/
def Crossbar.next (cb : Crossbar) : Option Connection × Crossbar :=
  let rem := 2 * cb.outer_idx
  if rem > cb.count then
    (none, cb)
  else if rem = cb.count then
    (some (Crossbar.half_block cb.count cb.outer_idx cb.inner_idx),
      cb.step cb.outer_idx)
  else
    (some (Crossbar.full_block cb.count cb.outer_idx cb.inner_idx),
      cb.step cb.count)

/-- Collect up to `fuel` items by repeatedly calling `Crossbar.next`,
stopping early when the iterator is exhausted. -/
def Crossbar.take : Nat → Crossbar → List Connection
  | 0, _ => []
  | fuel + 1, cb =>
    match cb.next with
    | (none, _) => []
    | (some c, cb2) => c :: Crossbar.take fuel cb2

/-- Fuel bound: strictly decreases across every productive `next` call. -/
def Crossbar.fuelBound (cb : Crossbar) : Nat :=
  (cb.count + 2 - 2 * cb.outer_idx) * (cb.count + 1) + (cb.count - cb.inner_idx)

/-- The full sequence produced by iterating the enumerator state `cb` to
exhaustion (the fuel is proven sufficient: see `take_congr` /
`enumerate_stable`). -/
def Crossbar.run (cb : Crossbar) : List Connection :=
  Crossbar.take (Crossbar.fuelBound cb) cb

/-- The complete sequence produced by iterating `Crossbar::new n`. -/
def Crossbar.enumerate (n : Nat) : List Connection :=
  Crossbar.run (Crossbar.new n)

/-- Iterate the state component of `Crossbar.next` `k` times. -/
def Crossbar.nextIter : Nat → Crossbar → Crossbar
  | 0, cb => cb
  | k + 1, cb => Crossbar.nextIter k (cb.next).2

/-- Closed form of the full-block levels: level `i` produces
`full_block n i j` for `j = 0, …, n-1`; the full levels are
`i = 1, …, (n+1)/2 - 1` (those with `2*i < n`). -/
def fullPart (n : Nat) : List Connection :=
  (List.range' 1 ((n + 1) / 2 - 1)).flatMap
    (fun i => (List.range n).map (fun j => Crossbar.full_block n i j))

/-- Closed form of the terminal half-block level, present only for even
`n ≥ 2`: `half_block n (n/2) j` for `j = 0, …, n/2 - 1`. -/
def halfPart (n : Nat) : List Connection :=
  if n % 2 = 0 ∧ 1 ≤ n / 2 then
    (List.range (n / 2)).map (fun j => Crossbar.half_block n (n / 2) j)
  else []

/-- The unordered pair of terminal numbers (row indices) joined by a
connection, normalised as (smaller, larger). -/
def rowPairOf (c : Connection) : Nat × Nat :=
  (min c.start.row_idx c.«end».row_idx, max c.start.row_idx c.«end».row_idx)

/-- All unordered pairs `{a, b}` with `a < b < n`, normalised as `(a, b)`. -/
def allPairs (n : Nat) : List (Nat × Nat) :=
  (List.range n).flatMap (fun b => (List.range b).map (fun a => (a, b)))

/-! ## Basic facts about `next`, `take`, `run` -/

theorem Crossbar.next_fst_none_iff (cb : Crossbar) :
    (cb.next).1 = none ↔ cb.count < 2 * cb.outer_idx := by
  simp only [Crossbar.next]
  split_ifs with h1 h2 <;> simp_all <;> omega

theorem Crossbar.next_of_done (cb : Crossbar) (h : cb.count < 2 * cb.outer_idx) :
    cb.next = (none, cb) := by
  simp only [Crossbar.next]
  split_ifs with h1 <;> simp_all

theorem Crossbar.next_of_half (cb : Crossbar) (h : 2 * cb.outer_idx = cb.count) :
    cb.next = (some (Crossbar.half_block cb.count cb.outer_idx cb.inner_idx),
      cb.step cb.outer_idx) := by
  simp only [Crossbar.next]
  split_ifs with h1 h2 <;> simp_all <;> omega

theorem Crossbar.next_of_full (cb : Crossbar) (h : 2 * cb.outer_idx < cb.count) :
    cb.next = (some (Crossbar.full_block cb.count cb.outer_idx cb.inner_idx),
      cb.step cb.count) := by
  simp only [Crossbar.next]
  split_ifs with h1 h2 <;> simp_all <;> omega

theorem Crossbar.fuelBound_pos (cb : Crossbar) (h : 2 * cb.outer_idx ≤ cb.count) :
    1 ≤ cb.fuelBound := by
  unfold Crossbar.fuelBound
  have h2 : 2 ≤ cb.count + 2 - 2 * cb.outer_idx := by omega
  have := Nat.mul_pos (show 0 < cb.count + 2 - 2 * cb.outer_idx by omega)
    (show 0 < cb.count + 1 by omega)
  omega

theorem Crossbar.fuelBound_decrease (cb cb2 : Crossbar) (c : Connection)
    (h : cb.next = (some c, cb2)) : cb2.fuelBound < cb.fuelBound := by
  obtain ⟨n, inr, o⟩ := cb
  simp only [Crossbar.next] at h
  split_ifs at h with h1 h2
  · simp at h
  · -- half-block branch: 2 * o = n
    simp only [Prod.mk.injEq, Option.some.injEq] at h
    obtain ⟨-, h⟩ := h
    simp only [Crossbar.step] at h
    split_ifs at h with h3
    · subst h
      unfold Crossbar.fuelBound
      simp only
      have e1 : n + 2 - 2 * (o + 1) = 0 := by omega
      have e2 : n + 2 - 2 * o = 2 := by omega
      rw [e1, e2]
      omega
    · subst h
      unfold Crossbar.fuelBound
      simp only
      omega
  · -- full-block branch: 2 * o < n
    simp only [Prod.mk.injEq, Option.some.injEq] at h
    obtain ⟨-, h⟩ := h
    simp only [Crossbar.step] at h
    split_ifs at h with h3
    · subst h
      unfold Crossbar.fuelBound
      simp only
      have e1 : n + 2 - 2 * (o + 1) = n - 2 * o := by omega
      have e2 : n + 2 - 2 * o = (n - 2 * o) + 2 := by omega
      rw [e1, e2, Nat.add_mul]
      omega
    · subst h
      unfold Crossbar.fuelBound
      simp only
      omega

theorem Crossbar.take_of_done (cb : Crossbar) (h : cb.count < 2 * cb.outer_idx) :
    ∀ fuel, Crossbar.take fuel cb = [] := by
  intro fuel
  cases fuel with
  | zero => rfl
  | succ f => rw [Crossbar.take, Crossbar.next_of_done cb h]

theorem Crossbar.take_congr : ∀ f1 f2 (cb : Crossbar), cb.fuelBound ≤ f1 →
    cb.fuelBound ≤ f2 → Crossbar.take f1 cb = Crossbar.take f2 cb := by
  intro f1
  induction f1 with
  | zero =>
    intro f2 cb h1 _
    have hz : cb.fuelBound = 0 := by omega
    have hd : cb.count < 2 * cb.outer_idx := by
      by_contra hc
      have := Crossbar.fuelBound_pos cb (by omega)
      omega
    rw [Crossbar.take_of_done cb hd, Crossbar.take_of_done cb hd]
  | succ f1 ih =>
    intro f2 cb h1 h2
    rcases h : cb.next with ⟨oc, cb2⟩
    cases oc with
    | none =>
      have hd : cb.count < 2 * cb.outer_idx := by
        rw [← Crossbar.next_fst_none_iff]
        rw [h]
      rw [Crossbar.take_of_done cb hd, Crossbar.take_of_done cb hd]
    | some c =>
      have hlt := Crossbar.fuelBound_decrease cb cb2 c h
      have hp : 1 ≤ cb.fuelBound := by omega
      cases f2 with
      | zero => omega
      | succ f2 =>
        rw [Crossbar.take, Crossbar.take, h]
        simp only
        rw [ih f2 cb2 (by omega) (by omega)]

theorem Crossbar.run_of_done (cb : Crossbar) (h : cb.count < 2 * cb.outer_idx) :
    cb.run = [] :=
  Crossbar.take_of_done cb h _

theorem Crossbar.run_of_some (cb cb2 : Crossbar) (c : Connection)
    (h : cb.next = (some c, cb2)) : cb.run = c :: cb2.run := by
  have hlt := Crossbar.fuelBound_decrease cb cb2 c h
  have hp : 1 ≤ cb.fuelBound := by omega
  unfold Crossbar.run
  obtain ⟨f, hf⟩ : ∃ f, cb.fuelBound = f + 1 := ⟨cb.fuelBound - 1, by omega⟩
  rw [hf, Crossbar.take, h]
  simp only
  rw [Crossbar.take_congr f cb2.fuelBound cb2 (by omega) (by omega)]

theorem Crossbar.enumerate_stable (n fuel : Nat)
    (h : (Crossbar.new n).fuelBound ≤ fuel) :
    Crossbar.take fuel (Crossbar.new n) = Crossbar.enumerate n :=
  Crossbar.take_congr fuel _ _ h (le_refl _)

/-! ## Level structure of the produced sequence -/

theorem Crossbar.run_full_level : ∀ d n i j, j + d = n → 1 ≤ d → 2 * i < n →
    Crossbar.run ⟨n, j, i⟩ =
      ((List.range' j d).map (fun k => Crossbar.full_block n i k)) ++
        Crossbar.run ⟨n, 0, i + 1⟩ := by
  intro d
  induction d with
  | zero => omega
  | succ d ih =>
    intro n i j hj hd hi
    have hnext := Crossbar.next_of_full ⟨n, j, i⟩ hi
    rw [Crossbar.run_of_some _ _ _ hnext]
    rcases Nat.eq_zero_or_pos d with h0 | h1
    · subst h0
      have hstep : Crossbar.step ⟨n, j, i⟩ n = ⟨n, 0, i + 1⟩ := by
        simp only [Crossbar.step]
        rw [if_pos (by omega : j + 1 ≥ n)]
      rw [hstep]
      simp [List.range'_succ]
    · have hstep : Crossbar.step ⟨n, j, i⟩ n = ⟨n, j + 1, i⟩ := by
        simp only [Crossbar.step]
        rw [if_neg (by omega : ¬ j + 1 ≥ n)]
      rw [hstep, ih n i (j + 1) (by omega) h1 hi, List.range'_succ]
      simp

theorem Crossbar.run_half_level : ∀ d n i j, j + d = i → 1 ≤ d → 2 * i = n →
    Crossbar.run ⟨n, j, i⟩ =
      ((List.range' j d).map (fun k => Crossbar.half_block n i k)) ++
        Crossbar.run ⟨n, 0, i + 1⟩ := by
  intro d
  induction d with
  | zero => omega
  | succ d ih =>
    intro n i j hj hd hi
    have hnext := Crossbar.next_of_half ⟨n, j, i⟩ hi
    rw [Crossbar.run_of_some _ _ _ hnext]
    rcases Nat.eq_zero_or_pos d with h0 | h1
    · subst h0
      have hstep : Crossbar.step ⟨n, j, i⟩ i = ⟨n, 0, i + 1⟩ := by
        simp only [Crossbar.step]
        rw [if_pos (by omega : j + 1 ≥ i)]
      rw [hstep]
      simp [List.range'_succ]
    · have hstep : Crossbar.step ⟨n, j, i⟩ i = ⟨n, j + 1, i⟩ := by
        simp only [Crossbar.step]
        rw [if_neg (by omega : ¬ j + 1 ≥ i)]
      rw [hstep, ih n i (j + 1) (by omega) h1 hi, List.range'_succ]
      simp

theorem Crossbar.run_levels : ∀ g n i, n + 2 - 2 * i ≤ g → 1 ≤ i →
    Crossbar.run ⟨n, 0, i⟩ =
      ((List.range' i ((n + 1) / 2 - i)).flatMap
        (fun l => (List.range n).map (fun j => Crossbar.full_block n l j))) ++
      (if n % 2 = 0 ∧ i ≤ n / 2 then
        (List.range (n / 2)).map (fun j => Crossbar.half_block n (n / 2) j)
      else []) := by
  intro g
  induction g with
  | zero =>
    intro n i hg hi
    rw [Crossbar.run_of_done ⟨n, 0, i⟩ (show n < 2 * i by omega)]
    rw [(by omega : (n + 1) / 2 - i = 0), if_neg (by omega)]
    simp
  | succ g ih =>
    intro n i hg hi
    rcases lt_trichotomy (2 * i) n with hlt | heq | hgt
    · rw [Crossbar.run_full_level n n i 0 (by omega) (by omega) hlt]
      rw [ih n (i + 1) (by omega) (by omega)]
      rw [(by omega : (n + 1) / 2 - i = ((n + 1) / 2 - (i + 1)) + 1), List.range'_succ]
      simp only [List.flatMap_cons]
      rw [List.append_assoc]
      rw [← List.range_eq_range']
      by_cases hev : n % 2 = 0
      · rw [if_pos ⟨hev, by omega⟩, if_pos ⟨hev, by omega⟩]
      · rw [if_neg (by omega), if_neg (by omega)]
    · rw [Crossbar.run_half_level i n i 0 (by omega) (by omega) heq]
      rw [Crossbar.run_of_done ⟨n, 0, i + 1⟩ (show n < 2 * (i + 1) by omega)]
      rw [(by omega : (n + 1) / 2 - i = 0), if_pos (by omega : n % 2 = 0 ∧ i ≤ n / 2)]
      rw [(by omega : n / 2 = i), ← List.range_eq_range']
      simp
    · rw [Crossbar.run_of_done ⟨n, 0, i⟩ (show n < 2 * i by omega)]
      rw [(by omega : (n + 1) / 2 - i = 0), if_neg (by omega)]
      simp

theorem Crossbar.enumerate_eq_parts (n : Nat) :
    Crossbar.enumerate n = fullPart n ++ halfPart n := by
  have h := Crossbar.run_levels (n + 2) n 1 (by omega) (by omega)
  unfold Crossbar.enumerate Crossbar.new
  rw [h]
  rfl

theorem mem_enumerate {n : Nat} {c : Connection} :
    c ∈ Crossbar.enumerate n ↔
      (∃ i j, 1 ≤ i ∧ 2 * i < n ∧ j < n ∧ c = Crossbar.full_block n i j) ∨
      (∃ i j, 2 * i = n ∧ 1 ≤ i ∧ j < i ∧ c = Crossbar.half_block n i j) := by
  rw [Crossbar.enumerate_eq_parts, List.mem_append]
  constructor
  · rintro (hfull | hhalf)
    · left
      simp only [fullPart, List.mem_flatMap, List.mem_map, List.mem_range'_1,
        List.mem_range] at hfull
      obtain ⟨i, ⟨hi1, hi2⟩, j, hj, rfl⟩ := hfull
      exact ⟨i, j, hi1, by omega, hj, rfl⟩
    · right
      unfold halfPart at hhalf
      split_ifs at hhalf with hc
      · rw [List.mem_map] at hhalf
        obtain ⟨j, hj, rfl⟩ := hhalf
        rw [List.mem_range] at hj
        exact ⟨n / 2, j, by omega, by omega, hj, rfl⟩
      · simp at hhalf
  · rintro (⟨i, j, hi1, hi2, hj, rfl⟩ | ⟨i, j, hi, hi1, hj, rfl⟩)
    · left
      simp only [fullPart, List.mem_flatMap, List.mem_map, List.mem_range'_1, List.mem_range]
      exact ⟨i, ⟨hi1, by omega⟩, j, hj, rfl⟩
    · right
      unfold halfPart
      rw [if_pos (show n % 2 = 0 ∧ 1 ≤ n / 2 by omega), List.mem_map]
      refine ⟨j, List.mem_range.mpr (by omega), ?_⟩
      rw [(show n / 2 = i by omega)]

/-! ## Shape of the produced connections, by case -/

theorem Crossbar.half_block_shape (n i j : Nat) :
    Crossbar.half_block n i j =
      ⟨⟨2 * i - 2, j, j + (2 * i - 2) * n⟩,
       ⟨2 * i - 2, i + j, (i + j) + (2 * i - 2) * n⟩, j⟩ := rfl

theorem Crossbar.full_block_even (n i j : Nat) (hq : (j / i) % 2 = 0) (hnw : i + j < n) :
    Crossbar.full_block n i j =
      ⟨⟨2 * i - 2, j, j + (2 * i - 2) * n⟩,
       ⟨2 * i - 2, i + j, (i + j) + (2 * i - 2) * n⟩, j % i⟩ := by
  unfold Crossbar.full_block Crossbar.full_block_forward Crossbar.b2i Position.new
  rw [Nat.and_one_is_mod, hq]
  simp [show ¬ n ≤ i + j by omega, Nat.mod_eq_of_lt hnw]

theorem Crossbar.full_block_even_wrap (n i j : Nat) (hq : (j / i) % 2 = 0)
    (hw : n ≤ i + j) (hi : i < n) (hj : j < n) :
    Crossbar.full_block n i j =
      ⟨⟨2 * i - 2, j, j + (2 * i - 2) * n⟩,
       ⟨2 * i - 1, i + j - n, (i + j - n) + (2 * i - 1) * n⟩, j % i⟩ := by
  unfold Crossbar.full_block Crossbar.full_block_forward Crossbar.b2i Position.new
  rw [Nat.and_one_is_mod, hq]
  have hmod : (i + j) % n = i + j - n := by
    rw [Nat.mod_eq_sub_mod hw, Nat.mod_eq_of_lt (by omega)]
  simp [hw, hmod, show 2 * i - 2 + 1 = 2 * i - 1 by omega]

theorem Crossbar.full_block_odd_nowrap (n i j : Nat) (hi : 1 ≤ i) (hq : (j / i) % 2 = 1)
    (hnw : i + j < n) :
    Crossbar.full_block n i j =
      ⟨⟨2 * i - 1, j, j + (2 * i - 1) * n⟩,
       ⟨2 * i - 1, i + j, (i + j) + (2 * i - 1) * n⟩, j % i⟩ := by
  unfold Crossbar.full_block Crossbar.full_block_forward Crossbar.b2i Position.new
  rw [Nat.and_one_is_mod, hq]
  simp [show ¬ n ≤ i + j by omega, Nat.mod_eq_of_lt hnw,
    show 2 * i - 2 + 1 = 2 * i - 1 by omega]

theorem Crossbar.full_block_rev (n i j : Nat) (hq : (j / i) % 2 = 1)
    (hw : n ≤ i + j) :
    Crossbar.full_block n i j =
      ⟨⟨2 * i - 1, i + j - n, (i + j - n) + (2 * i - 1) * n⟩,
       ⟨2 * i - 1, j, j + (2 * i - 1) * n⟩,
       if j < 3 * i then j % i else i + min (j % i) (j + i - n)⟩ := by
  unfold Crossbar.full_block Crossbar.full_block_reverse Position.new
  rw [Nat.and_one_is_mod, hq]
  simp [hw]

theorem Crossbar.full_block_even_span (n i j : Nat) (hq : (j / i) % 2 = 0)
    (hj : j < n) (hn : 2 * i < n) :
    (Crossbar.full_block n i j).start.abs_idx = j + (2 * i - 2) * n ∧
    (Crossbar.full_block n i j).«end».abs_idx = (i + j) + (2 * i - 2) * n ∧
    (Crossbar.full_block n i j).col_idx = j % i := by
  rcases Nat.lt_or_ge (i + j) n with hnw | hw
  · rw [Crossbar.full_block_even n i j hq hnw]
    exact ⟨rfl, rfl, rfl⟩
  · rw [Crossbar.full_block_even_wrap n i j hq hw (by omega) hj]
    refine ⟨rfl, ?_, rfl⟩
    have hB : (2 * i - 1) * n = (2 * i - 2) * n + n := by
      rw [show 2 * i - 1 = (2 * i - 2) + 1 by omega, Nat.add_mul, Nat.one_mul]
    simp only
    omega

theorem Crossbar.full_block_odd_nowrap_span (n i j : Nat) (hi : 1 ≤ i)
    (hq : (j / i) % 2 = 1) (hnw : i + j < n) :
    (Crossbar.full_block n i j).start.abs_idx = j + (2 * i - 1) * n ∧
    (Crossbar.full_block n i j).«end».abs_idx = (i + j) + (2 * i - 1) * n ∧
    (Crossbar.full_block n i j).col_idx = j % i := by
  rw [Crossbar.full_block_odd_nowrap n i j hi hq hnw]
  exact ⟨rfl, rfl, rfl⟩

theorem Crossbar.full_block_rev_span (n i j : Nat) (hq : (j / i) % 2 = 1)
    (hw : n ≤ i + j) :
    (Crossbar.full_block n i j).start.abs_idx = (i + j - n) + (2 * i - 1) * n ∧
    (Crossbar.full_block n i j).«end».abs_idx = j + (2 * i - 1) * n ∧
    (Crossbar.full_block n i j).col_idx =
      (if j < 3 * i then j % i else i + min (j % i) (j + i - n)) := by
  rw [Crossbar.full_block_rev n i j hq hw]
  exact ⟨rfl, rfl, rfl⟩

/-- Quotient/remainder of `j` by `i`, packaged as fresh variables so that
linear arithmetic can treat `i * q` as an opaque term. -/
theorem divmod_spec (i j : Nat) (hi : 1 ≤ i) :
    ∃ q r, j = i * q + r ∧ r < i ∧ j / i = q ∧ j % i = r :=
  ⟨j / i, j % i, (Nat.div_add_mod j i).symm, Nat.mod_lt _ (by omega), rfl, rfl⟩

theorem div_step_ge (i j1 j2 : Nat) (hi : 1 ≤ i) (hr : j1 % i = j2 % i)
    (hp : j1 / i % 2 = j2 / i % 2) (hlt : j1 < j2) : j1 + 2 * i ≤ j2 := by
  obtain ⟨q1, r1, hd1, hm1, hq1, hr1⟩ := divmod_spec i j1 hi
  obtain ⟨q2, r2, hd2, hm2, hq2, hr2⟩ := divmod_spec i j2 hi
  rw [hq1, hq2] at hp
  rw [hr1, hr2] at hr
  subst hr
  have hdle : q1 ≤ q2 := by
    rw [← hq1, ← hq2]
    exact Nat.div_le_div_right (le_of_lt hlt)
  have hdne : q1 ≠ q2 := by
    intro h
    rw [h] at hd1
    omega
  have h2 : q1 + 2 ≤ q2 := by omega
  have h3 : i * (q1 + 2) ≤ i * q2 := Nat.mul_le_mul_left i h2
  rw [Nat.mul_add] at h3
  omega

theorem helper_EB (n i j1 j2 : Nat) (hi : 1 ≤ i) (hn : 2 * i < n)
    (h1 : j1 < n)
    (hp1 : j1 / i % 2 = 0) (hp2 : j2 / i % 2 = 1) (hw2 : i + j2 < n) :
    (Crossbar.full_block n i j1).«end».abs_idx ≤
      (Crossbar.full_block n i j2).start.abs_idx := by
  obtain ⟨hs1, he1, hc1⟩ := Crossbar.full_block_even_span n i j1 hp1 h1 hn
  obtain ⟨hs2, he2, hc2⟩ := Crossbar.full_block_odd_nowrap_span n i j2 hi hp2 hw2
  rw [he1, hs2]
  obtain ⟨q2, r2, hd2, hm2, hq2, hr2⟩ := divmod_spec i j2 hi
  rw [hq2] at hp2
  have h3 : i * 1 ≤ i * q2 := Nat.mul_le_mul_left i (by omega)
  rw [Nat.mul_one] at h3
  have hB : (2 * i - 1) * n = (2 * i - 2) * n + n := by
    rw [show 2 * i - 1 = (2 * i - 2) + 1 by omega, Nat.add_mul, Nat.one_mul]
  omega

theorem helper_EC (n i j1 j2 : Nat) (hi : 1 ≤ i) (hn : 2 * i < n)
    (h1 : j1 < n) (h2 : j2 < n)
    (hp1 : j1 / i % 2 = 0) (hp2 : j2 / i % 2 = 1) (hw2 : n ≤ i + j2)
    (hcol : (Crossbar.full_block n i j1).col_idx =
      (Crossbar.full_block n i j2).col_idx) :
    (Crossbar.full_block n i j1).«end».abs_idx ≤
      (Crossbar.full_block n i j2).start.abs_idx := by
  obtain ⟨hs1, he1, hc1⟩ := Crossbar.full_block_even_span n i j1 hp1 h1 hn
  obtain ⟨hs2, he2, hc2⟩ := Crossbar.full_block_rev_span n i j2 hp2 hw2
  rw [he1, hs2]
  rw [hc1, hc2] at hcol
  obtain ⟨q1, r1, hd1, hm1, hq1, hr1⟩ := divmod_spec i j1 hi
  obtain ⟨q2, r2, hd2, hm2, hq2, hr2⟩ := divmod_spec i j2 hi
  rw [hq1] at hp1
  rw [hq2] at hp2
  rw [hr1, hr2] at hcol
  have hB : (2 * i - 1) * n = (2 * i - 2) * n + n := by
    rw [show 2 * i - 1 = (2 * i - 2) + 1 by omega, Nat.add_mul, Nat.one_mul]
  rcases Nat.lt_or_ge j2 (3 * i) with h3i | h3i
  · rw [if_pos h3i] at hcol
    have hq2v : q2 = 1 := by
      by_contra hc
      have h4 : i * 3 ≤ i * q2 := Nat.mul_le_mul_left i (by omega)
      omega
    have hP2 : i * q2 = i := by rw [hq2v, Nat.mul_one]
    have hq1v : q1 = 0 := by
      by_contra hc
      have h4 : i * 2 ≤ i * q1 := Nat.mul_le_mul_left i (by omega)
      omega
    have hP1 : i * q1 = 0 := by rw [hq1v, Nat.mul_zero]
    omega
  · rw [if_neg (by omega)] at hcol
    omega

theorem helper_BC_false (n i j1 j2 : Nat) (hi : 1 ≤ i) (hn : 2 * i < n)
    (h1 : j1 < n) (h2 : j2 < n) (hne : j1 ≠ j2)
    (hp1 : j1 / i % 2 = 1) (hw1 : i + j1 < n)
    (hp2 : j2 / i % 2 = 1) (hw2 : n ≤ i + j2)
    (hcol : (Crossbar.full_block n i j1).col_idx =
      (Crossbar.full_block n i j2).col_idx) :
    False := by
  obtain ⟨hs1, he1, hc1⟩ := Crossbar.full_block_odd_nowrap_span n i j1 hi hp1 hw1
  obtain ⟨hs2, he2, hc2⟩ := Crossbar.full_block_rev_span n i j2 hp2 hw2
  rw [hc1, hc2] at hcol
  obtain ⟨q1, r1, hd1, hm1, hq1, hr1⟩ := divmod_spec i j1 hi
  obtain ⟨q2, r2, hd2, hm2, hq2, hr2⟩ := divmod_spec i j2 hi
  rw [hq1] at hp1
  rw [hq2] at hp2
  rw [hr1, hr2] at hcol
  rcases Nat.lt_or_ge j2 (3 * i) with h3i | h3i
  · rw [if_pos h3i] at hcol
    have hq2v : q2 = 1 := by
      by_contra hc
      have h4 : i * 3 ≤ i * q2 := Nat.mul_le_mul_left i (by omega)
      omega
    have hP2 : i * q2 = i := by rw [hq2v, Nat.mul_one]
    rcases (show q1 = 1 ∨ 3 ≤ q1 by omega) with hq1v | hq1v
    · have hP1 : i * q1 = i := by rw [hq1v, Nat.mul_one]
      exact hne (by omega)
    · have h4 : i * 3 ≤ i * q1 := Nat.mul_le_mul_left i hq1v
      omega
  · rw [if_neg (by omega)] at hcol
    omega

theorem helper_CC_false (n i j1 j2 : Nat) (hi : 1 ≤ i) (hn : 2 * i < n)
    (h1 : j1 < n) (h2 : j2 < n) (hne : j1 ≠ j2)
    (hp1 : j1 / i % 2 = 1) (hw1 : n ≤ i + j1)
    (hp2 : j2 / i % 2 = 1) (hw2 : n ≤ i + j2)
    (hcol : (Crossbar.full_block n i j1).col_idx =
      (Crossbar.full_block n i j2).col_idx) :
    False := by
  obtain ⟨hs1, he1, hc1⟩ := Crossbar.full_block_rev_span n i j1 hp1 hw1
  obtain ⟨hs2, he2, hc2⟩ := Crossbar.full_block_rev_span n i j2 hp2 hw2
  rw [hc1, hc2] at hcol
  obtain ⟨q1, r1, hd1, hm1, hq1, hr1⟩ := divmod_spec i j1 hi
  obtain ⟨q2, r2, hd2, hm2, hq2, hr2⟩ := divmod_spec i j2 hi
  rw [hq1] at hp1
  rw [hq2] at hp2
  rw [hr1, hr2] at hcol
  -- both wrap indices lie in a window of width i, so their quotients agree
  have hQeq : q1 = q2 := by
    rcases lt_trichotomy q1 q2 with hq | hq | hq
    · have h4 : i * (q1 + 2) ≤ i * q2 := Nat.mul_le_mul_left i (by omega)
      rw [Nat.mul_add] at h4
      omega
    · exact hq
    · have h4 : i * (q2 + 2) ≤ i * q1 := Nat.mul_le_mul_left i (by omega)
      rw [Nat.mul_add] at h4
      omega
  have hP : i * q1 = i * q2 := by rw [hQeq]
  have h3iff : (j1 < 3 * i) ↔ (j2 < 3 * i) := by
    rcases Nat.lt_or_ge q1 3 with hq | hq
    · have h4 : i * q1 ≤ i * 2 := Nat.mul_le_mul_left i (by omega)
      omega
    · have h4 : i * 3 ≤ i * q1 := Nat.mul_le_mul_left i hq
      omega
  rcases Nat.lt_or_ge j1 (3 * i) with h3i | h3i
  · rw [if_pos h3i, if_pos (h3iff.mp h3i)] at hcol
    exact hne (by omega)
  · rw [if_neg (by omega), if_neg (show ¬ j2 < 3 * i by rw [← h3iff]; omega)] at hcol
    exact hne (by omega)

theorem Crossbar.full_block_abs_bounds (n i j : Nat) (hi : 1 ≤ i) (hn : 2 * i < n)
    (hj : j < n) :
    (2 * i - 2) * n ≤ (Crossbar.full_block n i j).start.abs_idx ∧
    (Crossbar.full_block n i j).start.abs_idx < (Crossbar.full_block n i j).«end».abs_idx ∧
    (Crossbar.full_block n i j).«end».abs_idx ≤ (2 * i) * n := by
  obtain ⟨m, hm2, hm1, hm0⟩ : ∃ m, 2 * i - 2 = m ∧ 2 * i - 1 = m + 1 ∧ 2 * i = m + 2 :=
    ⟨2 * i - 2, rfl, by omega, by omega⟩
  have e1 : (m + 1) * n = m * n + n := by rw [Nat.add_mul, Nat.one_mul]
  have e2 : (m + 2) * n = m * n + 2 * n := by rw [Nat.add_mul]
  rcases Nat.mod_two_eq_zero_or_one (j / i) with hp | hp
  · obtain ⟨hs, he, hc⟩ := Crossbar.full_block_even_span n i j hp hj hn
    rw [hs, he, hm2, hm0, e2]
    omega
  · rcases Nat.lt_or_ge (i + j) n with hw | hw
    · obtain ⟨hs, he, hc⟩ := Crossbar.full_block_odd_nowrap_span n i j hi hp hw
      rw [hs, he, hm2, hm1, hm0, e1, e2]
      omega
    · obtain ⟨hs, he, hc⟩ := Crossbar.full_block_rev_span n i j hp hw
      rw [hs, he, hm2, hm1, hm0, e1, e2]
      omega

theorem Crossbar.half_block_abs_bounds (n i j : Nat) (hi2 : 2 * i = n) (hj : j < i) :
    (2 * i - 2) * n ≤ (Crossbar.half_block n i j).start.abs_idx ∧
    (Crossbar.half_block n i j).start.abs_idx < (Crossbar.half_block n i j).«end».abs_idx ∧
    (Crossbar.half_block n i j).«end».abs_idx ≤ (2 * i) * n := by
  rw [Crossbar.half_block_shape]
  obtain ⟨m, hm2, hm0⟩ : ∃ m, 2 * i - 2 = m ∧ 2 * i = m + 2 :=
    ⟨2 * i - 2, rfl, by omega⟩
  have e2 : (m + 2) * n = m * n + 2 * n := by rw [Nat.add_mul]
  simp only
  rw [hm2, hm0, e2]
  omega

theorem Crossbar.full_level_disjoint (n i j1 j2 : Nat) (hi : 1 ≤ i) (hn : 2 * i < n)
    (h1 : j1 < n) (h2 : j2 < n) (hne : j1 ≠ j2)
    (hcol : (Crossbar.full_block n i j1).col_idx = (Crossbar.full_block n i j2).col_idx) :
    (Crossbar.full_block n i j1).«end».abs_idx ≤
        (Crossbar.full_block n i j2).start.abs_idx ∨
      (Crossbar.full_block n i j2).«end».abs_idx ≤
        (Crossbar.full_block n i j1).start.abs_idx := by
  rcases Nat.mod_two_eq_zero_or_one (j1 / i) with hp1 | hp1 <;>
    rcases Nat.mod_two_eq_zero_or_one (j2 / i) with hp2 | hp2
  · obtain ⟨hs1, he1, hc1⟩ := Crossbar.full_block_even_span n i j1 hp1 h1 hn
    obtain ⟨hs2, he2, hc2⟩ := Crossbar.full_block_even_span n i j2 hp2 h2 hn
    rw [hc1, hc2] at hcol
    rw [he1, hs2, he2, hs1]
    rcases Nat.lt_or_gt_of_ne hne with hlt | hlt
    · left
      have := div_step_ge i j1 j2 hi hcol (by omega) hlt
      omega
    · right
      have := div_step_ge i j2 j1 hi hcol.symm (by omega) hlt
      omega
  · rcases Nat.lt_or_ge (i + j2) n with hw2 | hw2
    · exact Or.inl (helper_EB n i j1 j2 hi hn h1 hp1 hp2 hw2)
    · exact Or.inl (helper_EC n i j1 j2 hi hn h1 h2 hp1 hp2 hw2 hcol)
  · rcases Nat.lt_or_ge (i + j1) n with hw1 | hw1
    · exact Or.inr (helper_EB n i j2 j1 hi hn h2 hp2 hp1 hw1)
    · exact Or.inr (helper_EC n i j2 j1 hi hn h2 h1 hp2 hp1 hw1 hcol.symm)
  · rcases Nat.lt_or_ge (i + j1) n with hw1 | hw1 <;>
      rcases Nat.lt_or_ge (i + j2) n with hw2 | hw2
    · obtain ⟨hs1, he1, hc1⟩ := Crossbar.full_block_odd_nowrap_span n i j1 hi hp1 hw1
      obtain ⟨hs2, he2, hc2⟩ := Crossbar.full_block_odd_nowrap_span n i j2 hi hp2 hw2
      rw [hc1, hc2] at hcol
      rw [he1, hs2, he2, hs1]
      rcases Nat.lt_or_gt_of_ne hne with hlt | hlt
      · left
        have := div_step_ge i j1 j2 hi hcol (by omega) hlt
        omega
      · right
        have := div_step_ge i j2 j1 hi hcol.symm (by omega) hlt
        omega
    · exact (helper_BC_false n i j1 j2 hi hn h1 h2 hne hp1 hw1 hp2 hw2 hcol).elim
    · exact (helper_BC_false n i j2 j1 hi hn h2 h1 (Ne.symm hne) hp2 hw2 hp1 hw1
        hcol.symm).elim
    · exact (helper_CC_false n i j1 j2 hi hn h1 h2 hne hp1 hw1 hp2 hw2 hcol).elim

/-- Any two distinct produced connections in the same column occupy disjoint
half-open absolute-index spans. -/
theorem enumerate_same_col_disjoint (n : Nat) (c1 c2 : Connection)
    (hc1 : c1 ∈ Crossbar.enumerate n) (hc2 : c2 ∈ Crossbar.enumerate n)
    (hne : c1 ≠ c2) (hcol : c1.col_idx = c2.col_idx) :
    c1.«end».abs_idx ≤ c2.start.abs_idx ∨ c2.«end».abs_idx ≤ c1.start.abs_idx := by
  rw [mem_enumerate] at hc1 hc2
  rcases hc1 with ⟨i1, j1, hi1, hn1, hj1, rfl⟩ | ⟨i1, j1, hi1e, hi1, hj1, rfl⟩ <;>
    rcases hc2 with ⟨i2, j2, hi2, hn2, hj2, rfl⟩ | ⟨i2, j2, hi2e, hi2, hj2, rfl⟩
  · rcases lt_trichotomy i1 i2 with hlt | heq | hlt
    · left
      have b1 := Crossbar.full_block_abs_bounds n i1 j1 hi1 hn1 hj1
      have b2 := Crossbar.full_block_abs_bounds n i2 j2 hi2 hn2 hj2
      have hmul : (2 * i1) * n ≤ (2 * i2 - 2) * n := Nat.mul_le_mul_right n (by omega)
      omega
    · subst heq
      have hjne : j1 ≠ j2 := by
        rintro rfl
        exact hne rfl
      exact Crossbar.full_level_disjoint n i1 j1 j2 hi1 hn1 hj1 hj2 hjne hcol
    · right
      have b1 := Crossbar.full_block_abs_bounds n i1 j1 hi1 hn1 hj1
      have b2 := Crossbar.full_block_abs_bounds n i2 j2 hi2 hn2 hj2
      have hmul : (2 * i2) * n ≤ (2 * i1 - 2) * n := Nat.mul_le_mul_right n (by omega)
      omega
  · left
    have b1 := Crossbar.full_block_abs_bounds n i1 j1 hi1 hn1 hj1
    have b2 := Crossbar.half_block_abs_bounds n i2 j2 hi2e hj2
    have hmul : (2 * i1) * n ≤ (2 * i2 - 2) * n := Nat.mul_le_mul_right n (by omega)
    omega
  · right
    have b1 := Crossbar.half_block_abs_bounds n i1 j1 hi1e hj1
    have b2 := Crossbar.full_block_abs_bounds n i2 j2 hi2 hn2 hj2
    have hmul : (2 * i2) * n ≤ (2 * i1 - 2) * n := Nat.mul_le_mul_right n (by omega)
    omega
  · exfalso
    have hieq : i1 = i2 := by omega
    subst hieq
    rw [Crossbar.half_block_shape, Crossbar.half_block_shape] at hcol
    simp only at hcol
    subst hcol
    exact hne rfl

/-! ## Coverage: the produced terminal pairs -/

theorem rowPairOf_half (n i j : Nat) :
    rowPairOf (Crossbar.half_block n i j) = (j, i + j) := by
  rw [Crossbar.half_block_shape]
  simp only [rowPairOf, Prod.mk.injEq, Nat.min_def, Nat.max_def]
  split_ifs <;> omega

theorem rowPairOf_full (n i j : Nat) (hi : 1 ≤ i) (hn : 2 * i < n) (hj : j < n) :
    rowPairOf (Crossbar.full_block n i j) =
      if i + j < n then (j, i + j) else (i + j - n, j) := by
  rcases Nat.lt_or_ge (i + j) n with hw | hw
  · rw [if_pos hw]
    rcases Nat.mod_two_eq_zero_or_one (j / i) with hp | hp
    · rw [Crossbar.full_block_even n i j hp hw]
      simp only [rowPairOf, Prod.mk.injEq, Nat.min_def, Nat.max_def]
      split_ifs <;> omega
    · rw [Crossbar.full_block_odd_nowrap n i j hi hp hw]
      simp only [rowPairOf, Prod.mk.injEq, Nat.min_def, Nat.max_def]
      split_ifs <;> omega
  · rw [if_neg (by omega)]
    rcases Nat.mod_two_eq_zero_or_one (j / i) with hp | hp
    · rw [Crossbar.full_block_even_wrap n i j hp hw (by omega) hj]
      simp only [rowPairOf, Prod.mk.injEq, Nat.min_def, Nat.max_def]
      split_ifs <;> omega
    · rw [Crossbar.full_block_rev n i j hp hw]
      simp only [rowPairOf, Prod.mk.injEq, Nat.min_def, Nat.max_def]
      split_ifs <;> omega

theorem mem_allPairs {n : Nat} {p : Nat × Nat} :
    p ∈ allPairs n ↔ p.1 < p.2 ∧ p.2 < n := by
  simp only [allPairs, List.mem_flatMap, List.mem_map, List.mem_range]
  constructor
  · rintro ⟨b, hb, a, ha, rfl⟩
    exact ⟨ha, hb⟩
  · rintro ⟨h1, h2⟩
    exact ⟨p.2, h2, p.1, h1, rfl⟩

theorem allPairs_succ (n : Nat) :
    allPairs (n + 1) = allPairs n ++ (List.range n).map (fun a => (a, n)) := by
  unfold allPairs
  rw [List.range_succ, List.flatMap_append]
  simp

theorem allPairs_nodup (n : Nat) : (allPairs n).Nodup := by
  induction n with
  | zero => exact List.nodup_nil
  | succ n ih =>
    rw [allPairs_succ]
    refine List.Nodup.append ih ?_ ?_
    · exact List.Nodup.map (fun a b h => congrArg Prod.fst h) (List.nodup_range n)
    · intro p hp1 hp2
      rw [mem_allPairs] at hp1
      rw [List.mem_map] at hp2
      obtain ⟨a, -, rfl⟩ := hp2
      exact absurd hp1.2 (lt_irrefl n)

theorem allPairs_length (n : Nat) : 2 * (allPairs n).length = n * (n - 1) := by
  induction n with
  | zero => rfl
  | succ n ih =>
    rw [allPairs_succ, List.length_append, List.length_map, List.length_range]
    have he : (n + 1) * (n + 1 - 1) = n * (n - 1) + 2 * n := by
      cases n with
      | zero => rfl
      | succ k =>
        rw [Nat.add_sub_cancel, Nat.succ_sub_one]
        ring
    omega

theorem length_level_flatMap (n : Nat) : ∀ (L a : Nat),
    ((List.range' a L).flatMap
      (fun i => (List.range n).map (fun j => Crossbar.full_block n i j))).length = L * n := by
  intro L
  induction L with
  | zero =>
    intro a
    simp
  | succ L ih =>
    intro a
    rw [List.range'_succ, List.flatMap_cons, List.length_append, List.length_map,
      List.length_range, ih (a + 1)]
    ring

theorem length_enumerate (n : Nat) :
    (Crossbar.enumerate n).length = n * (n - 1) / 2 := by
  rw [Crossbar.enumerate_eq_parts, List.length_append]
  rw [show (fullPart n).length = ((n + 1) / 2 - 1) * n from length_level_flatMap n _ 1]
  unfold halfPart
  rcases Nat.even_or_odd n with ⟨m, hm⟩ | ⟨m, hm⟩
  · subst hm
    rcases Nat.eq_zero_or_pos m with rfl | hpos
    · simp
    · obtain ⟨k, rfl⟩ : ∃ k, m = k + 1 := ⟨m - 1, by omega⟩
      rw [if_pos ⟨by omega, by omega⟩, List.length_map, List.length_range]
      rw [show (k + 1 + (k + 1) + 1) / 2 - 1 = k by omega]
      rw [show (k + 1 + (k + 1)) / 2 = k + 1 by omega]
      rw [show k + 1 + (k + 1) - 1 = 2 * k + 1 by omega]
      have e1 : (k + 1 + (k + 1)) * (2 * k + 1) = 2 * ((k + 1) * (2 * k + 1)) := by ring
      rw [e1, Nat.mul_div_cancel_left _ (by norm_num : (0:Nat) < 2)]
      ring
  · subst hm
    rw [if_neg (by omega), List.length_nil]
    rw [show (2 * m + 1 + 1) / 2 - 1 = m by omega]
    rw [show 2 * m + 1 - 1 = 2 * m by omega]
    have e1 : (2 * m + 1) * (2 * m) = 2 * (m * (2 * m + 1)) := by ring
    rw [e1, Nat.mul_div_cancel_left _ (by norm_num : (0:Nat) < 2)]
    omega

theorem allPairs_subset_pairs (n : Nat) :
    ∀ p ∈ allPairs n, p ∈ (Crossbar.enumerate n).map rowPairOf := by
  intro p hp
  rw [mem_allPairs] at hp
  obtain ⟨a, b⟩ := p
  simp only at hp
  obtain ⟨hab, hbn⟩ := hp
  rw [List.mem_map]
  rcases lt_trichotomy (2 * (b - a)) n with hd | hd | hd
  · refine ⟨Crossbar.full_block n (b - a) a, ?_, ?_⟩
    · rw [mem_enumerate]
      exact Or.inl ⟨b - a, a, by omega, hd, by omega, rfl⟩
    · rw [rowPairOf_full n (b - a) a (by omega) hd (by omega), if_pos (by omega),
        Prod.mk.injEq]
      exact ⟨rfl, by omega⟩
  · refine ⟨Crossbar.half_block n (b - a) a, ?_, ?_⟩
    · rw [mem_enumerate]
      exact Or.inr ⟨b - a, a, hd, by omega, by omega, rfl⟩
    · rw [rowPairOf_half, Prod.mk.injEq]
      exact ⟨rfl, by omega⟩
  · refine ⟨Crossbar.full_block n (n - (b - a)) b, ?_, ?_⟩
    · rw [mem_enumerate]
      exact Or.inl ⟨n - (b - a), b, by omega, by omega, hbn, rfl⟩
    · rw [rowPairOf_full n (n - (b - a)) b (by omega) (by omega) hbn, if_neg (by omega),
        Prod.mk.injEq]
      exact ⟨by omega, rfl⟩

/-- Coverage: the terminal pairs produced by enumeration are a permutation of
all unordered pairs `{a, b}`, `a < b < n`. -/
theorem pairs_perm (n : Nat) :
    ((Crossbar.enumerate n).map rowPairOf).Perm (allPairs n) := by
  have hsub : allPairs n ⊆ (Crossbar.enumerate n).map rowPairOf := allPairs_subset_pairs n
  have hsp := (allPairs_nodup n).subperm hsub
  have hlen : ((Crossbar.enumerate n).map rowPairOf).length ≤ (allPairs n).length := by
    rw [List.length_map, length_enumerate]
    have := allPairs_length n
    omega
  exact (hsp.perm_of_length_le hlen).symm

/-! ## Per-connection invariants -/

theorem Crossbar.full_block_col_lt (n i j : Nat) (hi : 1 ≤ i) (hn : 2 * i < n)
    (hj : j < n) : (Crossbar.full_block n i j).col_idx < n / 2 := by
  obtain ⟨q, r, hd, hm, hq, hr⟩ := divmod_spec i j hi
  rcases Nat.mod_two_eq_zero_or_one (j / i) with hp | hp
  · obtain ⟨-, -, hc⟩ := Crossbar.full_block_even_span n i j hp hj hn
    rw [hc, hr]
    omega
  · rcases Nat.lt_or_ge (i + j) n with hw | hw
    · obtain ⟨-, -, hc⟩ := Crossbar.full_block_odd_nowrap_span n i j hi hp hw
      rw [hc, hr]
      omega
    · obtain ⟨-, -, hc⟩ := Crossbar.full_block_rev_span n i j hp hw
      rw [hc, hr]
      rcases Nat.lt_or_ge j (3 * i) with h3i | h3i
      · rw [if_pos h3i]
        omega
      · rw [if_neg (by omega)]
        have hq3 : 3 ≤ q := by
          by_contra hc3
          have h4 : i * q ≤ i * 2 := Nat.mul_le_mul_left i (by omega)
          omega
        have h5 : i * 3 ≤ i * q := Nat.mul_le_mul_left i hq3
        omega

theorem Crossbar.full_block_block_le (n i j : Nat) (hi : 1 ≤ i) (hn : 2 * i < n)
    (hj : j < n) :
    (Crossbar.full_block n i j).start.block_idx ≤ (Crossbar.full_block n i j).«end».block_idx ∧
    (Crossbar.full_block n i j).«end».block_idx ≤
      (Crossbar.full_block n i j).start.block_idx + 1 := by
  rcases Nat.mod_two_eq_zero_or_one (j / i) with hp | hp
  · rcases Nat.lt_or_ge (i + j) n with hw | hw
    · rw [Crossbar.full_block_even n i j hp hw]
      simp only
      omega
    · rw [Crossbar.full_block_even_wrap n i j hp hw (by omega) hj]
      simp only
      omega
  · rcases Nat.lt_or_ge (i + j) n with hw | hw
    · rw [Crossbar.full_block_odd_nowrap n i j hi hp hw]
      simp only
      omega
    · rw [Crossbar.full_block_rev n i j hp hw]
      simp only
      omega

theorem Crossbar.full_block_abs_inv (n i j : Nat) (hi : 1 ≤ i) (hn : 2 * i < n)
    (hj : j < n) :
    (Crossbar.full_block n i j).start.abs_idx =
      (Crossbar.full_block n i j).start.row_idx +
        (Crossbar.full_block n i j).start.block_idx * n ∧
    (Crossbar.full_block n i j).«end».abs_idx =
      (Crossbar.full_block n i j).«end».row_idx +
        (Crossbar.full_block n i j).«end».block_idx * n := by
  rcases Nat.mod_two_eq_zero_or_one (j / i) with hp | hp
  · rcases Nat.lt_or_ge (i + j) n with hw | hw
    · rw [Crossbar.full_block_even n i j hp hw]
      exact ⟨rfl, rfl⟩
    · rw [Crossbar.full_block_even_wrap n i j hp hw (by omega) hj]
      exact ⟨rfl, rfl⟩
  · rcases Nat.lt_or_ge (i + j) n with hw | hw
    · rw [Crossbar.full_block_odd_nowrap n i j hi hp hw]
      exact ⟨rfl, rfl⟩
    · rw [Crossbar.full_block_rev n i j hp hw]
      exact ⟨rfl, rfl⟩

/-! ## The claims -/

/-- C1: for every `N ≥ 1` the sequence produced by iterating `Crossbar::new N`
has exactly `N*(N-1)/2` elements, and the multiset of unordered
`{start.row_idx, end.row_idx}` pairs over those elements is exactly the set of
all pairs `{a, b}` with `0 ≤ a < b < N`, each appearing exactly once (the pair
list is a permutation of the duplicate-free list of all such pairs). -/
theorem claim_C1 (n : Nat) (hn : 1 ≤ n) :
    (Crossbar.enumerate n).length = n * (n - 1) / 2 ∧
    ((Crossbar.enumerate n).map rowPairOf).Perm (allPairs n) ∧
    (allPairs n).Nodup :=
  ⟨length_enumerate n, pairs_perm n, allPairs_nodup n⟩

theorem claim_C1_witness :
    1 ≤ 5 ∧
    ((Crossbar.enumerate 5).length = 5 * (5 - 1) / 2 ∧
      ((Crossbar.enumerate 5).map rowPairOf).Perm (allPairs 5) ∧
      (allPairs 5).Nodup) :=
  ⟨by decide, claim_C1 5 (by decide)⟩

/-- C2: for every `N ≥ 1`, every produced Connection satisfies
`col_idx < columns N` with `columns N = N / 2` (floor). -/
theorem claim_C2 (n : Nat) (hn : 1 ≤ n) (c : Connection)
    (hc : c ∈ Crossbar.enumerate n) : c.col_idx < Crossbar.columns n := by
  rw [mem_enumerate] at hc
  rcases hc with ⟨i, j, hi, h2i, hj, rfl⟩ | ⟨i, j, h2i, hi, hj, rfl⟩
  · exact Crossbar.full_block_col_lt n i j hi h2i hj
  · rw [Crossbar.half_block_shape]
    simp only [Crossbar.columns]
    omega

theorem claim_C2_witness :
    1 ≤ 5 ∧ (⟨⟨0, 0, 0⟩, ⟨0, 1, 1⟩, 0⟩ : Connection) ∈ Crossbar.enumerate 5 ∧
    (⟨⟨0, 0, 0⟩, ⟨0, 1, 1⟩, 0⟩ : Connection).col_idx < Crossbar.columns 5 :=
  ⟨by decide, by decide, claim_C2 5 (by decide) _ (by decide)⟩

/-- C3 as stated is false: for `N = 3` the connection joining terminal 2 to
terminal 0 starts in block 0 and ends in block 1. -/
theorem claim_C3_counterexample :
    ¬ (∀ c ∈ Crossbar.enumerate 3, c.start.block_idx = c.«end».block_idx) := by
  decide

/-- C3 (amended): for every `N ≥ 1`, every produced Connection satisfies
`start.block_idx ≤ end.block_idx ≤ start.block_idx + 1`, and the two blocks
are equal except exactly in the forward wrap-around case: for a full-block
connection generated by level `i` and inner index `j`,
`end.block_idx = start.block_idx + 1` if and only if `is_odd` is false
(`(j / i) % 2 = 0`) and `is_wrap` holds (`i + j ≥ N`); a half-block
connection always has equal blocks. -/
theorem claim_C3 (n : Nat) (hn : 1 ≤ n) (c : Connection)
    (hc : c ∈ Crossbar.enumerate n) :
    (c.start.block_idx ≤ c.«end».block_idx ∧
      c.«end».block_idx ≤ c.start.block_idx + 1) ∧
    ((∃ i j, 1 ≤ i ∧ 2 * i < n ∧ j < n ∧ c = Crossbar.full_block n i j ∧
        (c.«end».block_idx = c.start.block_idx + 1 ↔
          ((j / i) % 2 = 0 ∧ i + j ≥ n))) ∨
      (∃ i j, 2 * i = n ∧ 1 ≤ i ∧ j < i ∧ c = Crossbar.half_block n i j ∧
        c.«end».block_idx = c.start.block_idx)) := by
  rw [mem_enumerate] at hc
  rcases hc with ⟨i, j, hi, h2i, hj, rfl⟩ | ⟨i, j, h2i, hi, hj, rfl⟩
  · refine ⟨Crossbar.full_block_block_le n i j hi h2i hj,
      Or.inl ⟨i, j, hi, h2i, hj, rfl, ?_⟩⟩
    rcases Nat.mod_two_eq_zero_or_one (j / i) with hp | hp
    · rcases Nat.lt_or_ge (i + j) n with hw | hw
      · rw [Crossbar.full_block_even n i j hp hw]
        simp only
        constructor
        · intro h
          exact absurd h (by omega)
        · rintro ⟨-, h2⟩
          exact absurd h2 (by omega)
      · rw [Crossbar.full_block_even_wrap n i j hp hw (by omega) hj]
        simp only
        exact ⟨fun _ => ⟨hp, hw⟩, fun _ => by omega⟩
    · rcases Nat.lt_or_ge (i + j) n with hw | hw
      · rw [Crossbar.full_block_odd_nowrap n i j hi hp hw]
        simp only
        constructor
        · intro h
          exact absurd h (by omega)
        · rintro ⟨h1, -⟩
          rw [h1] at hp
          exact absurd hp (by decide)
      · rw [Crossbar.full_block_rev n i j hp hw]
        simp only
        constructor
        · intro h
          exact absurd h (by omega)
        · rintro ⟨h1, -⟩
          rw [h1] at hp
          exact absurd hp (by decide)
  · refine ⟨?_, Or.inr ⟨i, j, h2i, hi, hj, rfl, rfl⟩⟩
    rw [Crossbar.half_block_shape]
    simp only
    omega

theorem claim_C3_witness :
    1 ≤ 3 ∧ (⟨⟨0, 2, 2⟩, ⟨1, 0, 3⟩, 0⟩ : Connection) ∈ Crossbar.enumerate 3 ∧
    ((⟨⟨0, 2, 2⟩, ⟨1, 0, 3⟩, 0⟩ : Connection).start.block_idx ≤
        (⟨⟨0, 2, 2⟩, ⟨1, 0, 3⟩, 0⟩ : Connection).«end».block_idx ∧
      (⟨⟨0, 2, 2⟩, ⟨1, 0, 3⟩, 0⟩ : Connection).«end».block_idx ≤
        (⟨⟨0, 2, 2⟩, ⟨1, 0, 3⟩, 0⟩ : Connection).start.block_idx + 1) :=
  ⟨by decide, by decide, (claim_C3 3 (by decide) _ (by decide)).1⟩

/-- C4: for every `N ≥ 1`, every produced Connection has its endpoints in the
same or in two adjacent blocks: `|start.block_idx - end.block_idx| ≤ 1`. -/
theorem claim_C4 (n : Nat) (hn : 1 ≤ n) (c : Connection)
    (hc : c ∈ Crossbar.enumerate n) :
    ((c.start.block_idx : Int) - (c.«end».block_idx : Int)).natAbs ≤ 1 := by
  rw [mem_enumerate] at hc
  rcases hc with ⟨i, j, hi, h2i, hj, rfl⟩ | ⟨i, j, h2i, hi, hj, rfl⟩
  · have h := Crossbar.full_block_block_le n i j hi h2i hj
    omega
  · rw [Crossbar.half_block_shape]
    simp only
    omega

theorem claim_C4_witness :
    1 ≤ 3 ∧ (⟨⟨0, 2, 2⟩, ⟨1, 0, 3⟩, 0⟩ : Connection) ∈ Crossbar.enumerate 3 ∧
    (((⟨⟨0, 2, 2⟩, ⟨1, 0, 3⟩, 0⟩ : Connection).start.block_idx : Int) -
        ((⟨⟨0, 2, 2⟩, ⟨1, 0, 3⟩, 0⟩ : Connection).«end».block_idx : Int)).natAbs ≤ 1 :=
  ⟨by decide, by decide, claim_C4 3 (by decide) _ (by decide)⟩

/-- C5: for every `N ≥ 1`, any two distinct produced Connections with the same
`col_idx` occupy disjoint half-open absolute-index spans: no abs-index cell
`k` lies in both `[start,end)` intervals. -/
theorem claim_C5 (n : Nat) (hn : 1 ≤ n) (c1 c2 : Connection)
    (hc1 : c1 ∈ Crossbar.enumerate n) (hc2 : c2 ∈ Crossbar.enumerate n)
    (hne : c1 ≠ c2) (hcol : c1.col_idx = c2.col_idx) :
    ∀ k : Nat, ¬ (c1.start.abs_idx ≤ k ∧ k < c1.«end».abs_idx ∧
      c2.start.abs_idx ≤ k ∧ k < c2.«end».abs_idx) := by
  intro k
  have h := enumerate_same_col_disjoint n c1 c2 hc1 hc2 hne hcol
  omega

theorem claim_C5_witness :
    1 ≤ 5 ∧ (⟨⟨0, 0, 0⟩, ⟨0, 1, 1⟩, 0⟩ : Connection) ∈ Crossbar.enumerate 5 ∧
    (⟨⟨1, 1, 6⟩, ⟨1, 2, 7⟩, 0⟩ : Connection) ∈ Crossbar.enumerate 5 ∧
    ¬ ((⟨⟨0, 0, 0⟩, ⟨0, 1, 1⟩, 0⟩ : Connection).start.abs_idx ≤ 0 ∧
        0 < (⟨⟨0, 0, 0⟩, ⟨0, 1, 1⟩, 0⟩ : Connection).«end».abs_idx ∧
        (⟨⟨1, 1, 6⟩, ⟨1, 2, 7⟩, 0⟩ : Connection).start.abs_idx ≤ 0 ∧
        0 < (⟨⟨1, 1, 6⟩, ⟨1, 2, 7⟩, 0⟩ : Connection).«end».abs_idx) :=
  ⟨by decide, by decide, by decide,
    claim_C5 5 (by decide) _ _ (by decide) (by decide) (by decide) (by decide) 0⟩

/-- C6 as stated is false: `Crossbar::new(0)` is not rejected — it constructs
an ordinary enumerator state, and iterating it produces the silently-empty
sequence (`next` immediately reports exhaustion without touching the state). -/
theorem claim_C6_counterexample :
    Crossbar.new 0 = ⟨0, 0, 1⟩ ∧ (Crossbar.new 0).next = (none, Crossbar.new 0) ∧
      Crossbar.enumerate 0 = [] := by
  refine ⟨rfl, ?_, rfl⟩
  decide

/-- C6 (amended): supplying `N = 0` is not rejected at the boundary:
`Crossbar::new(0)` succeeds (yielding the state `{count 0, inner 0, outer 1}`),
the first `next` call already reports exhaustion leaving the state unchanged,
and the produced sequence is empty, regardless of how often `next` is
called. -/
theorem claim_C6 :
    Crossbar.new 0 = ⟨0, 0, 1⟩ ∧ (Crossbar.new 0).next = (none, Crossbar.new 0) ∧
      Crossbar.enumerate 0 = [] ∧
      ∀ fuel : Nat, Crossbar.take fuel (Crossbar.new 0) = [] := by
  refine ⟨rfl, by decide, rfl, ?_⟩
  exact Crossbar.take_of_done (Crossbar.new 0) (by decide)

/-- C7: `next` produces no item exactly when `2 * outer_idx > count` held at
the start of the call (for arbitrary states, hence for all reachable ones),
and an exhausted enumerator is absorbing: `next` leaves the state unchanged,
so every subsequent call also produces nothing. -/
theorem claim_C7 (cb : Crossbar) :
    ((cb.next).1 = none ↔ cb.count < 2 * cb.outer_idx) ∧
    (cb.count < 2 * cb.outer_idx →
      cb.next = (none, cb) ∧
      (∀ k : Nat, Crossbar.nextIter k cb = cb) ∧
      (∀ k : Nat, ((Crossbar.nextIter k cb).next).1 = none)) := by
  refine ⟨Crossbar.next_fst_none_iff cb, fun h => ?_⟩
  have habs : ∀ k : Nat, Crossbar.nextIter k cb = cb := by
    intro k
    induction k with
    | zero => rfl
    | succ k ih =>
      rw [Crossbar.nextIter, Crossbar.next_of_done cb h]
      exact ih
  exact ⟨Crossbar.next_of_done cb h, habs,
    fun k => by rw [habs k]; exact (Crossbar.next_fst_none_iff cb).mpr h⟩

theorem claim_C7_witness :
    ((⟨5, 0, 3⟩ : Crossbar).next.1 = none) ∧
    (⟨5, 0, 3⟩ : Crossbar).next = (none, (⟨5, 0, 3⟩ : Crossbar)) ∧
    Crossbar.nextIter 2 ⟨5, 0, 3⟩ = ⟨5, 0, 3⟩ :=
  ⟨(claim_C7 ⟨5, 0, 3⟩).1.mpr (by decide),
    ((claim_C7 ⟨5, 0, 3⟩).2 (by decide)).1,
    ((claim_C7 ⟨5, 0, 3⟩).2 (by decide)).2.1 2⟩

/-- C8: for every `N ≥ 1` and every Position inside a produced Connection
(start and end), `abs_idx = row_idx + block_idx * N`. -/
theorem claim_C8 (n : Nat) (hn : 1 ≤ n) (c : Connection)
    (hc : c ∈ Crossbar.enumerate n) :
    c.start.abs_idx = c.start.row_idx + c.start.block_idx * n ∧
    c.«end».abs_idx = c.«end».row_idx + c.«end».block_idx * n := by
  rw [mem_enumerate] at hc
  rcases hc with ⟨i, j, hi, h2i, hj, rfl⟩ | ⟨i, j, h2i, hi, hj, rfl⟩
  · exact Crossbar.full_block_abs_inv n i j hi h2i hj
  · rw [Crossbar.half_block_shape]
    exact ⟨rfl, rfl⟩

theorem claim_C8_witness :
    1 ≤ 5 ∧ (⟨⟨0, 0, 0⟩, ⟨0, 1, 1⟩, 0⟩ : Connection) ∈ Crossbar.enumerate 5 ∧
    ((⟨⟨0, 0, 0⟩, ⟨0, 1, 1⟩, 0⟩ : Connection).start.abs_idx =
        (⟨⟨0, 0, 0⟩, ⟨0, 1, 1⟩, 0⟩ : Connection).start.row_idx +
          (⟨⟨0, 0, 0⟩, ⟨0, 1, 1⟩, 0⟩ : Connection).start.block_idx * 5 ∧
      (⟨⟨0, 0, 0⟩, ⟨0, 1, 1⟩, 0⟩ : Connection).«end».abs_idx =
        (⟨⟨0, 0, 0⟩, ⟨0, 1, 1⟩, 0⟩ : Connection).«end».row_idx +
          (⟨⟨0, 0, 0⟩, ⟨0, 1, 1⟩, 0⟩ : Connection).«end».block_idx * 5) :=
  ⟨by decide, by decide, claim_C8 5 (by decide) _ (by decide)⟩

/-- C9: the topology functions satisfy `blocks N = N - 1`,
`rows N = N * (N - 1)` and `columns N = N / 2` (floor) for `N ≥ 1`; for
`N = 5` they give 4, 20, 2 and the first produced Connection has
`start.row_idx = 0`, `end.row_idx = 1`, `col_idx = 0`, `start.block_idx = 0`. -/
theorem claim_C9 :
    (∀ n : Nat, 1 ≤ n → Crossbar.blocks n = n - 1 ∧
      Crossbar.rows n = n * (n - 1) ∧ Crossbar.columns n = n / 2) ∧
    Crossbar.blocks 5 = 4 ∧ Crossbar.rows 5 = 20 ∧ Crossbar.columns 5 = 2 ∧
    ((Crossbar.enumerate 5).head?.map (fun c =>
      (c.start.row_idx, c.«end».row_idx, c.col_idx, c.start.block_idx))) =
        some (0, 1, 0, 0) :=
  ⟨fun _ _ => ⟨rfl, rfl, rfl⟩, rfl, rfl, rfl, by decide⟩

theorem claim_C9_witness :
    Crossbar.blocks 3 = 3 - 1 ∧ Crossbar.rows 3 = 3 * (3 - 1) ∧
      Crossbar.columns 3 = 3 / 2 :=
  claim_C9.1 3 (by decide)

/-- C10: for every `N ≥ 1`, every produced Connection satisfies
`start.abs_idx < end.abs_idx`, in each construction case. -/
theorem claim_C10 (n : Nat) (hn : 1 ≤ n) (c : Connection)
    (hc : c ∈ Crossbar.enumerate n) : c.start.abs_idx < c.«end».abs_idx := by
  rw [mem_enumerate] at hc
  rcases hc with ⟨i, j, hi, h2i, hj, rfl⟩ | ⟨i, j, h2i, hi, hj, rfl⟩
  · exact (Crossbar.full_block_abs_bounds n i j hi h2i hj).2.1
  · exact (Crossbar.half_block_abs_bounds n i j h2i hj).2.1

theorem claim_C10_witness :
    1 ≤ 5 ∧ (⟨⟨0, 0, 0⟩, ⟨0, 1, 1⟩, 0⟩ : Connection) ∈ Crossbar.enumerate 5 ∧
    (⟨⟨0, 0, 0⟩, ⟨0, 1, 1⟩, 0⟩ : Connection).start.abs_idx <
      (⟨⟨0, 0, 0⟩, ⟨0, 1, 1⟩, 0⟩ : Connection).«end».abs_idx :=
  ⟨by decide, by decide, claim_C10 5 (by decide) _ (by decide)⟩

end Xbar
